import Mathlib

/-!
# Verification of the libronda version-constraint matching engine

Shallow embedding of `src/core/src/version/matching.rs` together with the
parts of the crate it depends on.  `spec_trees.rs`, `comp_op.rs` and
`version.rs` are not under `src/`, so the definitions for those modules are
modelled from the specification (each such definition carries a doc comment
starting with `Modelled from the spec:`).  Everything taken from
`matching.rs` itself follows the Rust source line by line; panics
(`panic!`, `unwrap` on `None`) are modelled as `Except.error`.
-/

/-- Modelled from the spec: the `Combinator` enum of `spec_trees.rs`
(§3, §4.3): AND (`,`) or OR (`|`). -/
inductive Combinator where
  | and : Combinator
  | or : Combinator
deriving DecidableEq, Repr

/-- Modelled from the spec: the `ConstraintTree` of `spec_trees.rs`,
following §9: "model `ConstraintTree` as a recursive sum type
`Leaf(text) | Node(Combinator, Vec<ConstraintTree>)`". -/
inductive CTree where
  | leaf : String → CTree
  | node : Combinator → List CTree → CTree
deriving Repr

/-- The four grouping/combinator characters of the constraint grammar
(§4.3, §6): `(`, `)`, `|`, `,`. -/
def isTreeSpecial (c : Char) : Bool :=
  c == '(' || c == ')' || c == '|' || c == ','

/-- Drop leading whitespace characters. -/
def dropLeadWS (l : List Char) : List Char :=
  l.dropWhile Char.isWhitespace

/-- Drop trailing whitespace characters. -/
def dropTrailWS (l : List Char) : List Char :=
  (l.reverse.dropWhile Char.isWhitespace).reverse

/-- Trim whitespace from both ends of a character list. -/
def trimChars (l : List Char) : List Char :=
  dropTrailWS (dropLeadWS l)

/-- Tokens of the constraint grammar. -/
inductive VTok where
  | lpar : VTok
  | rpar : VTok
  | comma : VTok
  | pipe : VTok
  | leaf : List Char → VTok
deriving DecidableEq, Repr

/-- The token corresponding to one grouping/combinator character. -/
def tokOf (c : Char) : VTok :=
  if c == '(' then .lpar
  else if c == ')' then .rpar
  else if c == '|' then .pipe
  else .comma

/-- Emit the pending leaf run (trimmed); an all-whitespace run yields no
token. -/
def flushLeaf (acc : List Char) : List VTok :=
  let t := trimChars acc
  if t.isEmpty then [] else [.leaf t]

/-- Tokenizer worker: `acc` is the pending run of non-special characters. -/
def tokenizeAux : List Char → List Char → List VTok
  | acc, [] => flushLeaf acc
  | acc, c :: cs =>
    if isTreeSpecial c then flushLeaf acc ++ tokOf c :: tokenizeAux [] cs
    else tokenizeAux (acc ++ [c]) cs

/-- Modelled from the spec: tokenization of a raw constraint string over the
character classes `(`, `)`, `|`, `,` (§4.3); leaf tokens are the maximal
runs in between, trimmed of surrounding whitespace. -/
def tokenize (cs : List Char) : List VTok :=
  tokenizeAux [] cs

/-- Splice the parts of any direct child that carries the same combinator
into the parent's part list (flattening, §4.3: "both are flattened at each
grouping level into a single combinator"). -/
def splice : Combinator → List CTree → List CTree
  | _, [] => []
  | c, .node cc ps :: rest =>
    (if cc == c then ps else [.node cc ps]) ++ splice c rest
  | c, t :: rest => t :: splice c rest

/-- Build a tree node: flatten same-combinator children and collapse a
singleton group to its only member. -/
def mkNode (c : Combinator) (ts : List CTree) : CTree :=
  match splice c ts with
  | [t] => t
  | ts2 => .node c ts2

/-- Modelled from the spec: the recursive-descent/shunting parse of §4.3
and the grammar of §6 (`or_expr := and_expr ('|' and_expr)*`,
`and_expr := term (',' term)*`, `term := '(' or_expr ')' | leaf`), as a
stack machine over the token list.  `after` records whether an operand was
just completed; `curAnd` collects the terms of the current AND group,
`curOr` the finished OR alternatives, and `stack` the saved contexts of the
enclosing parenthesized groups.  All the syntax errors of §4.3 (unbalanced
parentheses, a combinator with an empty operand) are reported. -/
def parseToks : List VTok → Bool → List CTree → List CTree →
    List (List CTree × List CTree) → Except String CTree
  | [], after, curAnd, curOr, stack =>
    if after then
      match stack with
      | [] => .ok (mkNode .or (curOr ++ [mkNode .and curAnd]))
      | _ => .error "unbalanced parenthesis: missing closing parenthesis"
    else .error "empty operand"
  | .leaf s :: rest, after, curAnd, curOr, stack =>
    if after then .error "missing combinator between operands"
    else parseToks rest true (curAnd ++ [.leaf (String.mk s)]) curOr stack
  | .lpar :: rest, after, curAnd, curOr, stack =>
    if after then .error "missing combinator before group"
    else parseToks rest false [] [] ((curAnd, curOr) :: stack)
  | .comma :: rest, after, curAnd, curOr, stack =>
    if after then parseToks rest false curAnd curOr stack
    else .error "empty operand before comma"
  | .pipe :: rest, after, curAnd, curOr, stack =>
    if after then parseToks rest false [] (curOr ++ [mkNode .and curAnd]) stack
    else .error "empty operand before pipe"
  | .rpar :: rest, after, curAnd, curOr, stack =>
    if after then
      match stack with
      | [] => .error "unbalanced parenthesis: unexpected closing parenthesis"
      | (pa, po) :: st =>
        parseToks rest true (pa ++ [mkNode .or (curOr ++ [mkNode .and curAnd])]) po st
    else .error "empty operand before closing parenthesis"

/-- Modelled from the spec: `treeify(text) -> ConstraintTree`, failing with
a `SyntaxError` on unbalanced parentheses or an empty operand around a
combinator (§4.3). -/
def treeify (s : String) : Except String CTree :=
  parseToks (tokenize s.data) false [] [] []

mutual

/-- Modelled from the spec: serialization of one tree (§4.3 `untreeify`):
`,` joins AND children, `|` joins OR children, and a child is wrapped in
parentheses exactly where precedence requires it, namely an OR group that
occurs inside an AND group (`inAnd`). -/
def render : CTree → Bool → List Char
  | .leaf s, _ => s.data
  | .node .or ps, inAnd =>
    let r := renderParts ps false ['|']
    if inAnd then '(' :: (r ++ [')']) else r
  | .node .and ps, _ => renderParts ps true [',']

/-- Serialize a part list, interposing the separator `sep`. -/
def renderParts : List CTree → Bool → List Char → List Char
  | [], _, _ => []
  | [p], inAnd, _ => render p inAnd
  | p :: ps, inAnd, sep => render p inAnd ++ sep ++ renderParts ps inAnd sep

end

/-- Modelled from the spec: `untreeify(tree) -> String` (§4.3). -/
def untreeify (t : CTree) : String :=
  String.mk (render t false)

/-- Modelled from the spec: one alternating run inside a version segment
(§3: "each segment further split into alternating numeric and alphabetic
runs (so `2013a` compares as `[2013, "a"]`)"). -/
inductive VRun where
  | num : Nat → VRun
  | alpha : String → VRun
deriving DecidableEq, Repr

/-- Modelled from the spec: the `Version` of `version.rs` (§3): an ordered
sequence of release segments plus an optional local-identifier sequence,
populated only when the text contains a `+` separator. -/
structure RVersion where
  release : List (List VRun)
  localSeg : List (List VRun)
deriving DecidableEq, Repr

/-- Split one segment's characters into alternating numeric and alphabetic
runs: group maximal runs of digit / non-digit characters. -/
def segRuns (cs : List Char) : List VRun :=
  (cs.splitBy (fun a b => a.isDigit == b.isDigit)).map fun run =>
    match run with
    | [] => .num 0
    | c :: _ =>
      if c.isDigit then .num (String.mk run).toNat! else .alpha (String.mk run)

/-- Split a character list on `.` and `-` separators (§3). -/
def splitSegs (cs : List Char) : List (List Char) :=
  cs.splitOnP (fun c => c == '.' || c == '-')

/-- Modelled from the spec: version parsing (§4.1, §3) as the infallible
`impl From<&str> for Version` that `matching.rs` invokes through `.into()`:
the text before the first `+` yields the release segments, the text after
it the local identifier segments. -/
def versionFrom (s : String) : RVersion :=
  let rel := s.data.takeWhile (fun c => c != '+')
  let rest := s.data.dropWhile (fun c => c != '+')
  { release := (splitSegs rel).map segRuns
    localSeg :=
      match rest with
      | [] => []
      | _ :: lo => (splitSegs lo).map segRuns }

/-- Compare two runs (§4.1): numeric runs compare numerically, alphabetic
runs lexicographically, and a numeric run sorts before an alphabetic run at
the same position. -/
def cmpRun : VRun → VRun → Ordering
  | .num a, .num b => compare a b
  | .alpha a, .alpha b => compare a b
  | .num _, .alpha _ => .lt
  | .alpha _, .num _ => .gt

/-- Compare two segments run-by-run, a missing run counting as the zero
run. -/
def cmpSeg : List VRun → List VRun → Ordering
  | [], [] => .eq
  | [], r :: rs =>
    match cmpRun (.num 0) r with
    | .eq => cmpSeg [] rs
    | o => o
  | l :: ls, [] =>
    match cmpRun l (.num 0) with
    | .eq => cmpSeg ls []
    | o => o
  | l :: ls, r :: rs =>
    match cmpRun l r with
    | .eq => cmpSeg ls rs
    | o => o

/-- Compare two segment sequences element-wise, a missing trailing segment
counting as the zero segment (§4.1, trailing-zero equivalence). -/
def cmpSegs : List (List VRun) → List (List VRun) → Ordering
  | [], [] => .eq
  | [], r :: rs =>
    match cmpSeg [VRun.num 0] r with
    | .eq => cmpSegs [] rs
    | o => o
  | l :: ls, [] =>
    match cmpSeg l [VRun.num 0] with
    | .eq => cmpSegs ls []
    | o => o
  | l :: ls, r :: rs =>
    match cmpSeg l r with
    | .eq => cmpSegs ls rs
    | o => o

/-- Modelled from the spec: `VersionModel.compare` (§4.1): release segments
first, then the local identifiers, compared only if both sides declare one;
absence of a local identifier on one side is treated as smallest. -/
def cmpVersion (a b : RVersion) : Ordering :=
  match cmpSegs a.release b.release with
  | .eq =>
    match a.localSeg, b.localSeg with
    | [], [] => .eq
    | [], _ :: _ => .lt
    | _ :: _, [] => .gt
    | la, lb => cmpSegs la lb
  | o => o

/-- Modelled from the spec: `VersionModel.starts_with` (§4.1): the
candidate's segment sequence (release, then local if the constraint
declares one) begins with exactly the constraint's segments,
segment-for-segment, with no zero-padding leniency. -/
def versionStartsWith (a pfx : RVersion) : Bool :=
  if pfx.localSeg.isEmpty then pfx.release.isPrefixOf a.release
  else pfx.release == a.release && pfx.localSeg.isPrefixOf a.localSeg

/-- Modelled from the spec: the `CompOp` enum of `comp_op.rs` (§3).  The
constructor names follow the two uses visible in `matching.rs`
(`CompOp::Eq`, `CompOp::StartsWith`); in the spec's naming `Eq` is
`StrictEqual`, `CompatibleEq` is `CompatibleEqual` (single `=`), `Ne` is
`NotEqual`, `NotStartsWith` is `NotEqualStartsWith` (from `!=X.*`),
`Lt`/`Le`/`Gt`/`Ge` are `Less`/`LessEqual`/`Greater`/`GreaterEqual` and
`Compatible` is `CompatibleRelease` (`~=`). -/
inductive CompOp where
  | Eq : CompOp
  | CompatibleEq : CompOp
  | Ne : CompOp
  | NotStartsWith : CompOp
  | Lt : CompOp
  | Le : CompOp
  | Gt : CompOp
  | Ge : CompOp
  | Compatible : CompOp
  | StartsWith : CompOp
deriving DecidableEq, Repr

/-- Modelled from the spec: `CompOp::from_sign` / `parse_token` (§4.2),
over the token set produced by the operator regex of `matching.rs` plus the
internal `"!=startswith"` rewrite. -/
def CompOp.from_sign : String → Option CompOp
  | "==" => some .Eq
  | "=" => some .CompatibleEq
  | "!=" => some .Ne
  | "!=startswith" => some .NotStartsWith
  | "<" => some .Lt
  | "<=" => some .Le
  | ">" => some .Gt
  | ">=" => some .Ge
  | "~=" => some .Compatible
  | "startswith" => some .StartsWith
  | _ => none

/-- Modelled from the spec: `Version::compare_to_str` as used in
`MatchOperator::test` (§4.2): parse the candidate text and evaluate the
operator with `self` as the constraint version. -/
def compare_to_str (v : RVersion) (other : String) (op : CompOp) : Bool :=
  let cand := versionFrom other
  match op with
  | .Eq => cmpVersion cand v == .eq
  | .CompatibleEq => versionStartsWith cand v
  | .Ne => cmpVersion cand v != .eq
  | .NotStartsWith => !versionStartsWith cand v
  | .Lt => cmpVersion cand v == .lt
  | .Le => cmpVersion cand v != .gt
  | .Gt => cmpVersion cand v == .gt
  | .Ge => cmpVersion cand v != .lt
  | .Compatible =>
    (cmpVersion cand v != .lt) &&
      versionStartsWith cand { release := v.release.dropLast, localSeg := [] }
  | .StartsWith => versionStartsWith cand v

/-- The `MatchEnum` of `matching.rs` (lines 119–129): the closed tagged
variant over the matcher kinds.  `MatchRegex` holds the pattern text of the
compiled `Regex`. -/
inductive MatchEnum where
  | MatchAny : CTree → MatchEnum
  | MatchAll : CTree → MatchEnum
  | MatchRegex : String → MatchEnum
  | MatchOperator : CompOp → RVersion → MatchEnum
  | MatchAlways : MatchEnum
  | MatchExact : String → MatchEnum
  | MatchNever : MatchEnum

/-- `impl Default for MatchEnum` (line 131–133). -/
def MatchEnum.default : MatchEnum := .MatchNever

/-- The `MatchFn::test` dispatch of `matching.rs` (lines 135–211).
`MatchAny::test`, `MatchAll::test` and `MatchRegex::test` are
`panic!("Not implemented...")` in the source (lines 144–151, 157–164,
170–174); the panic is modelled as `Except.error` with the panic message. -/
def MatchEnum.test : MatchEnum → String → Except String Bool
  | .MatchAny _, _ =>
    .error "Not implemented.  Not sure how tuple of VersionSpec matches with ConstraintTree"
  | .MatchAll _, _ =>
    .error "Not implemented.  Not sure how tuple of VersionSpec matches with ConstraintTree"
  | .MatchRegex _, _ => .error "Not implemented"
  | .MatchOperator op v, other => .ok (compare_to_str v other op)
  | .MatchAlways, _ => .ok true
  | .MatchNever, _ => .ok false
  | .MatchExact s, other => .ok (other == s)

/-- The `VersionSpec` struct of `matching.rs` (lines 23–29). -/
structure VersionSpec where
  spec_str : String
  tree : Option CTree
  matcher : MatchEnum
  _is_exact : Bool

/-- `Spec::get_spec` for `VersionSpec` (line 33). -/
def VersionSpec.get_spec (s : VersionSpec) : String := s.spec_str

/-- `Spec::get_matcher` for `VersionSpec` (line 34). -/
def VersionSpec.get_matcher (s : VersionSpec) : MatchEnum := s.matcher

/-- `Spec::is_exact` for `VersionSpec` (line 35). -/
def VersionSpec.is_exact (s : VersionSpec) : Bool := s._is_exact

/-- The `Spec` trait's provided `raw_value` (line 9). -/
def VersionSpec.raw_value (s : VersionSpec) : String := s.get_spec

/-- The `Spec` trait's provided `exact_value` (lines 10–11):
`if self.is_exact() { Some(self.get_spec()) } else { None }`. -/
def VersionSpec.exact_value (s : VersionSpec) : Option String :=
  if s.is_exact then some s.get_spec else none

/-- The `Spec` trait's provided `test_match` (line 20):
`self.get_matcher().test(other)`. -/
def VersionSpec.test_match (s : VersionSpec) (other : String) : Except String Bool :=
  s.get_matcher.test other

/-- Whether the tree's top-level combinator is `Or` (under the spec's
sum-type model of `ConstraintTree`, a bare leaf carries no combinator and
falls to the `_` arm of the `match` in lines 88–91). -/
def isOrTree : CTree → Bool
  | .node .or _ => true
  | _ => false

/-- `impl From<ConstraintTree> for VersionSpec` (lines 86–96): an `Or` tree
becomes a `MatchAny`, anything else a `MatchAll`; the spec string is
`untreeify(&tree).unwrap()`; a tree-based spec is never exact (line 93). -/
def versionSpecFromTree (tree : CTree) : VersionSpec :=
  { spec_str := untreeify tree
    tree := some tree
    matcher := if isOrTree tree then .MatchAny tree else .MatchAll tree
    _is_exact := false }

/-- The operator characters excluded by the lookahead `(?![=<>!~])` of
`VERSION_RELATION_RE` (line 99 of `matching.rs`). -/
def isOpChar (c : Char) : Bool :=
  c == '=' || c == '<' || c == '>' || c == '!' || c == '~'

/-- The alternatives of the capture group
`(=|==|!=|<=|>=|<|>|~=)` in source order (backtracking tries them
left to right). -/
def relAlts : List String := ["=", "==", "!=", "<=", ">=", "<", ">", "~="]

/-- Whether the regex `^ALT(?![=<>!~])(\S+)$` accepts `input` for one
alternative `ALT`: `input` starts with the alternative, the next character
is not an operator character, and the remainder is a nonempty run of
non-whitespace reaching the end. -/
def altAccepts (input : String) (alt : String) : Bool :=
  alt.data.isPrefixOf input.data &&
    (match input.data.drop alt.data.length with
     | [] => false
     | c :: cs => !isOpChar c && !c.isWhitespace && cs.all (fun x => !x.isWhitespace))

/-- The two captures of `VERSION_RELATION_RE`
(`^(=|==|!=|<=|>=|<|>|~=)(?![=<>!~])(\S+)$`, line 99): with the regex
crate's leftmost-first alternation the operator capture is the first
alternative that also satisfies the lookahead and leaves a nonempty
whitespace-free remainder. -/
def versionRelationCaptures (input : String) : Option (String × String) :=
  (relAlts.find? (altAccepts input)).map
    (fun alt => (alt, String.mk (input.data.drop alt.data.length)))

/-- `create_match_enum_from_operator_str` (lines 98–117): on a `.*` suffix,
`!=` is rewritten to the `"!=startswith"` operator and `~=` is rejected;
the suffix is stripped; the matcher is a `MatchOperator` and exactness is
`operator_str == "=="`.  The `unwrap` on `from_sign` (line 114) cannot fire
on the tokens this function produces; it is modelled as an error arm. -/
def create_match_enum_from_operator_str (input : String) :
    Except String (MatchEnum × Bool) :=
  match versionRelationCaptures input with
  | none => .error ("invalid operator in string " ++ input)
  | some (op0, v0) =>
    let strip := ['.', '*'].isSuffixOf v0.data
    if strip && op0 == "~=" then
      .error ("invalid operator (~=) with '.*' in spec string: " ++ input)
    else
      let operator_str := if strip && op0 == "!=" then "!=startswith" else op0
      let v_str := if strip then String.mk (v0.data.take (v0.data.length - 2)) else v0
      match CompOp.from_sign operator_str with
      | some op => .ok (.MatchOperator op (versionFrom v_str), operator_str == "==")
      | none => .error "called Option::unwrap() on a None value"

/-- The `OPERATOR_START` set of `VersionSpec::try_from` (line 43). -/
def OPERATOR_START : List String := ["=", "<", ">", "!", "~"]

/-- Models `str::trim_end_matches`: drop the longest trailing run of
characters satisfying `p`. -/
def dropTrailing (s : String) (p : Char → Bool) : String :=
  String.mk ((s.data.reverse.dropWhile p).reverse)

/-- Replace every non-overlapping occurrence of `pat` (nonempty) in `l` by
`rep`, left to right; models `str::replace`. -/
def replaceChars : List Char → List Char → List Char → List Char
  | [], _, _ => []
  | c :: cs, [], _ => c :: cs
  | c :: cs, p :: ps, rep =>
    if (p :: ps).isPrefixOf (c :: cs) then
      rep ++ replaceChars ((c :: cs).drop (p :: ps).length) (p :: ps) rep
    else c :: replaceChars cs (p :: ps) rep
termination_by l => l.length
decreasing_by
  · simp only [List.length_cons, List.drop_succ_cons, List.length_drop]
    omega
  · simp

/-- Models `str::replace` on `String`. -/
def strReplace (s pat rep : String) : String :=
  String.mk (replaceChars s.data pat.data rep.data)

/-- The single-leaf classification of `VersionSpec::try_from`
(lines 50–82): regex form, operator form, literal `*`, internal wildcard,
trailing wildcard, plain literal, `@`-literal.  `Regex::new(..).unwrap()`
only stores the pattern here since `MatchRegex::test` is unimplemented in
the source.  (In the source this code is unreachable: the early return of
lines 45–49 always fires; see the claim theorems.  The byte-slice
`&input[..1]`, which would panic on an empty `input`, is modelled by
`String.take 1`.) -/
def classifyLeaf (input : String) : Except String VersionSpec :=
  if ['^'].isPrefixOf input.data || ['$'].isSuffixOf input.data then
    if !(['^'].isPrefixOf input.data) || !(['$'].isSuffixOf input.data) then
      .error ("regex specs must start with '^' and end with '$' - spec '" ++
        input ++ "' is incorrect")
    else
      .ok { spec_str := input, tree := none, matcher := .MatchRegex input,
            _is_exact := false }
  else if OPERATOR_START.contains (String.mk (input.data.take 1)) then
    match create_match_enum_from_operator_str input with
    | .error e => .error e
    | .ok (m, e) => .ok { spec_str := input, tree := none, matcher := m, _is_exact := e }
  else if input == "*" then
    .ok { spec_str := input, tree := none, matcher := .MatchAlways, _is_exact := false }
  else if (dropTrailing input (fun c => c == '*')).data.contains '*' then
    let rx := strReplace (strReplace (strReplace input "." "\\.") "+" "\\+") "*" ".*"
    .ok { spec_str := input, tree := none,
          matcher := .MatchRegex ("^(?:" ++ rx ++ ")$"), _is_exact := false }
  else if ['*'].isSuffixOf input.data then
    .ok { spec_str := input, tree := none,
          matcher := .MatchOperator .StartsWith
            (versionFrom (dropTrailing input (fun c => c == '*' || c == '.'))),
          _is_exact := false }
  else if !(input.data.contains '@') then
    .ok { spec_str := input, tree := none,
          matcher := .MatchOperator .Eq (versionFrom input), _is_exact := true }
  else
    .ok { spec_str := input, tree := none, matcher := .MatchExact input,
          _is_exact := true }

/-- The character class of `REGEX_SPLIT_RE` (`.*[()|,^$]`, line 42). -/
def isSplitChar (c : Char) : Bool :=
  c == '(' || c == ')' || c == '|' || c == ',' || c == '^' || c == '$'

/-- Models `REGEX_SPLIT_RE.split(input)` (line 45) for newline-free input:
with leftmost-first greedy matching, `.*[()|,^$]` has a single match
covering everything up to and including the last class character, so the
split yields the empty piece before the match and the piece after it; with
no class character present the whole string is the only piece.  Either way
the split is nonempty. -/
def regexSplit (input : String) : List String :=
  if input.data.any isSplitChar then
    ["", String.mk ((input.data.reverse.takeWhile (fun c => !isSplitChar c)).reverse)]
  else [input]

/-- `VersionSpec::try_from` (lines 41–83): if the `REGEX_SPLIT_RE` split is
nonempty (it always is), build a `ConstraintTree` with `treeify` and
convert it (lines 45–49); otherwise fall through to the single-leaf
classification of lines 50–82. -/
def VersionSpec.try_from (input : String) : Except String VersionSpec :=
  if (regexSplit input).length > 0 then
    match treeify input with
    | .error e => .error e
    | .ok tree => .ok (versionSpecFromTree tree)
  else classifyLeaf input

/-- Parse a constraint and, on success, run `test_match` on a candidate:
the outer `Except` is the parse result, the inner one the (possibly
panicking) match result. -/
def testAfterParse (s v : String) : Except String (Except String Bool) :=
  (VersionSpec.try_from s).map (fun sp => sp.test_match v)

/-- The condition the spec's classification gate (§4.4 design note) demands
for the compound path: a grouping/combinator character `(`, `)`, `|`, `,`
anywhere in the raw text, or a leading `^`, or a trailing `$`. -/
def hasCompoundMarker (s : String) : Bool :=
  s.data.any isTreeSpecial || ['^'].isPrefixOf s.data || ['$'].isSuffixOf s.data

/-- The top-level combinator of a tree, if any. -/
def topComb : CTree → Option Combinator
  | .leaf _ => none
  | .node c _ => some c

/-- A leaf text as produced by the tokenizer: nonempty, already trimmed,
and free of grouping/combinator characters. -/
def canonLeaf (cs : List Char) : Bool :=
  !cs.isEmpty && (trimChars cs == cs) && cs.all (fun c => !isTreeSpecial c)

mutual

/-- Canonical trees: exactly the shapes `treeify` produces — leaves are
tokenizer leaves, every node has at least two parts and no direct child
with the same combinator (flattening). -/
def Canon : CTree → Bool
  | .leaf s => canonLeaf s.data
  | .node c ps => decide (2 ≤ ps.length) && CanonParts c ps

/-- All parts are canonical and none repeats the parent combinator. -/
def CanonParts : Combinator → List CTree → Bool
  | _, [] => true
  | c, p :: ps => Canon p && (topComb p != some c) && CanonParts c ps

end

mutual

/-- The token sequence of `render t inAnd`: the serialization of a tree at
the token level. -/
def tokTree : CTree → Bool → List VTok
  | .leaf s, _ => [.leaf s.data]
  | .node .or ps, inAnd =>
    let r := tokParts ps false .pipe
    if inAnd then .lpar :: (r ++ [.rpar]) else r
  | .node .and ps, _ => tokParts ps true .comma

/-- Token serialization of a part list with separator token `sep`. -/
def tokParts : List CTree → Bool → VTok → List VTok
  | [], _, _ => []
  | [p], inAnd, _ => tokTree p inAnd
  | p :: ps, inAnd, sep => tokTree p inAnd ++ sep :: tokParts ps inAnd sep

end

/-- The terms a tree contributes to an enclosing AND group: an AND node
contributes its parts, anything else itself. -/
def andParts : CTree → List CTree
  | .node .and ps => ps
  | t => [t]

/-- Last element of the nonempty list `a :: l`. -/
def lastOf (a : CTree) : List CTree → CTree
  | [] => a
  | b :: bs => lastOf b bs

/-- All but the last element of the nonempty list `a :: l`. -/
def initOf (a : CTree) : List CTree → List CTree
  | [] => []
  | b :: bs => a :: initOf b bs

/-- A character list that may legally follow a serialized tree during
tokenization: empty, or starting with a grouping/combinator character. -/
def RestOK (rest : List Char) : Prop :=
  rest = [] ∨ ∃ c rest2, rest = c :: rest2 ∧ isTreeSpecial c = true

/-- The parser machine consumes the term-position serialization of `t` as
one more term of the current AND group. -/
def TermRun (t : CTree) : Prop :=
  ∀ rest curAnd curOr stack,
    parseToks (tokTree t true ++ rest) false curAnd curOr stack =
      parseToks rest true (curAnd ++ [t]) curOr stack

/-- The parser machine consumes the alternative-position serialization of
`t` as the terms `andParts t` of the current AND group. -/
def AndRun (t : CTree) : Prop :=
  ∀ rest curAnd curOr stack,
    parseToks (tokTree t false ++ rest) false curAnd curOr stack =
      parseToks rest true (curAnd ++ andParts t) curOr stack

/-- One canonicalization pass: `untreeify(treeify(s))` (§4.3). -/
def canonicalize (s : String) : Except String String :=
  (treeify s).map untreeify

/-! ## Structural properties of `VersionSpec::try_from` -/

/-- `Regex::split` returns at least one piece on every input, so the
condition `split_input.len() > 0` of line 46 always holds. -/
theorem regexSplit_length_pos (input : String) : (regexSplit input).length > 0 := by
  unfold regexSplit
  split <;> simp

/-- `try_from` is exactly the compound-tree path: the guard of line 46 is
always true. -/
theorem try_from_eq (input : String) :
    VersionSpec.try_from input =
      match treeify input with
      | .error e => .error e
      | .ok tree => .ok (versionSpecFromTree tree) := by
  unfold VersionSpec.try_from
  rw [if_pos (regexSplit_length_pos input)]

/-- Every successfully parsed spec comes from `From<ConstraintTree>`. -/
theorem try_from_ok (input : String) (spec : VersionSpec)
    (h : VersionSpec.try_from input = .ok spec) :
    ∃ t, treeify input = .ok t ∧ spec = versionSpecFromTree t := by
  rw [try_from_eq] at h
  cases ht : treeify input with
  | error e => rw [ht] at h; exact absurd h (by simp)
  | ok t =>
    rw [ht] at h
    refine ⟨t, rfl, ?_⟩
    injection h with h2
    exact h2.symm

/-! ## Claim theorems -/

/-- C1: the claim says the compound-tree path is taken only when the input
contains a grouping/combinator character or an anchor.  In the code the
`REGEX_SPLIT_RE` split is never empty, so `VersionSpec::try_from` takes the
compound-tree path for every input — here shown for `"==1.7"`, which
contains none of `(`, `)`, `|`, `,` and no leading `^` / trailing `$`, yet
is parsed into a tree-based spec (whose matcher is the tree-based
`MatchAll`), leaving the single-leaf rules unreachable. -/
theorem claim_C1_gate_always_compound :
    (∀ input : String, (regexSplit input).length > 0) ∧
    hasCompoundMarker "==1.7" = false ∧
    VersionSpec.try_from "==1.7" = .ok (versionSpecFromTree (.leaf "==1.7")) ∧
    (versionSpecFromTree (.leaf "==1.7")).matcher = .MatchAll (.leaf "==1.7") :=
  ⟨regexSplit_length_pos, by decide, rfl, rfl⟩

/-- C2: the claim says the compound AND example accepts `"2.7.2"` and
rejects `"2.6.8"`.  In the code the compound spec parses successfully, but
`MatchAll::test` is `panic!("Not implemented...")`, so `test` panics on
every candidate instead of evaluating the children. -/
theorem claim_C2_compound_test_panics :
    testAfterParse ">=2.7,!=3.0.*,!=3.1.*,!=3.2.*,!=3.3.*" "2.7.2" =
      .ok (.error "Not implemented.  Not sure how tuple of VersionSpec matches with ConstraintTree") ∧
    testAfterParse ">=2.7,!=3.0.*,!=3.1.*,!=3.2.*,!=3.3.*" "2.6.8" =
      .ok (.error "Not implemented.  Not sure how tuple of VersionSpec matches with ConstraintTree") :=
  ⟨rfl, rfl⟩

/-- C3: the claim says `test` never fails once parsing succeeded.  In the
code every successfully parsed spec is tree-based (see C1) and both
tree matchers panic, so `test_match` fails on every candidate for every
successfully parsed spec. -/
theorem claim_C3_test_always_errors (input : String) (spec : VersionSpec)
    (v : String) (h : VersionSpec.try_from input = .ok spec) :
    spec.test_match v =
      .error "Not implemented.  Not sure how tuple of VersionSpec matches with ConstraintTree" := by
  obtain ⟨t, ht, rfl⟩ := try_from_ok input spec h
  unfold VersionSpec.test_match VersionSpec.get_matcher versionSpecFromTree
  cases ho : isOrTree t <;> simp [ho, MatchEnum.test]

/-- Witness for C3 at the concrete spec `"==1.7"` and candidate
`"1.7.0"`. -/
theorem claim_C3_witness :
    (versionSpecFromTree (.leaf "==1.7")).test_match "1.7.0" =
      .error "Not implemented.  Not sure how tuple of VersionSpec matches with ConstraintTree" :=
  claim_C3_test_always_errors "==1.7" _ "1.7.0" (by rfl)

/-- C4: the claim says `"1.7.1*"` and `"1.7.1.*"` parse to equal specs that
are one shared interned instance.  In the code `try_from` has no interning
registry at all and simply builds a fresh spec whose canonical text is the
untreeified input, so the two parses do not even agree on the spec
string. -/
theorem claim_C4_no_interning :
    (VersionSpec.try_from "1.7.1*").map VersionSpec.get_spec = .ok "1.7.1*" ∧
    (VersionSpec.try_from "1.7.1.*").map VersionSpec.get_spec = .ok "1.7.1.*" ∧
    "1.7.1*" ≠ "1.7.1.*" :=
  ⟨rfl, rfl, by decide⟩

/-- C5: `create_match_enum_from_operator_str` does implement the claimed
rule — `"!=3.3.*"` becomes the `NotEqualStartsWith` operator on the
stripped version `"3.3"` (not exact) and `"~=3.3.2.*"` is rejected — but
the function is unreachable from `try_from` (see C1), so
`parse("~=3.3.2.*")` does not fail: it succeeds through the compound-tree
path. -/
theorem claim_C5_not_eq_star :
    create_match_enum_from_operator_str "!=3.3.*" =
      .ok (.MatchOperator .NotStartsWith (versionFrom "3.3"), false) ∧
    create_match_enum_from_operator_str "~=3.3.2.*" =
      .error "invalid operator (~=) with '.*' in spec string: ~=3.3.2.*" ∧
    (VersionSpec.try_from "~=3.3.2.*").map VersionSpec.get_spec = .ok "~=3.3.2.*" :=
  ⟨rfl, rfl, rfl⟩

/-- C6: the single-leaf classifier does reject a lone anchor with the
claimed message, but it is unreachable (see C1): `try_from("^1.5")`
succeeds through the compound-tree path; and for the both-anchors form the
claim says `test` is a full regex match, while both the live path (tree
`MatchAll`) and the dead classifier path (`MatchRegex`) panic on `test`. -/
theorem claim_C6_regex_leaf :
    classifyLeaf "^1.5" =
      .error "regex specs must start with '^' and end with '$' - spec '^1.5' is incorrect" ∧
    (VersionSpec.try_from "^1.5").map VersionSpec.get_spec = .ok "^1.5" ∧
    testAfterParse "^1.7.1$" "1.7.1" =
      .ok (.error "Not implemented.  Not sure how tuple of VersionSpec matches with ConstraintTree") ∧
    (classifyLeaf "^1.7.1$").map (fun s => s.test_match "1.7.1") =
      .ok (.error "Not implemented") :=
  ⟨rfl, rfl, rfl, rfl⟩

/-- C7: the claim says `is_exact()` is true exactly for `==` operator
leaves and plain literal leaves.  In the code every successfully parsed
spec is tree-based (see C1) and `From<ConstraintTree>` sets
`_is_exact: false` unconditionally, so `is_exact()` is false for every
parsed constraint, including the plain literal `"1.7.1"`. -/
theorem claim_C7_is_exact_always_false (input : String) (spec : VersionSpec)
    (h : VersionSpec.try_from input = .ok spec) : spec.is_exact = false := by
  obtain ⟨t, ht, rfl⟩ := try_from_ok input spec h
  rfl

/-- Witness for C7 at the plain literal `"1.7.1"`, for which the claim
demands `is_exact() == true`. -/
theorem claim_C7_witness :
    (versionSpecFromTree (.leaf "1.7.1")).is_exact = false :=
  claim_C7_is_exact_always_false "1.7.1" _ (by rfl)

/-- C8: the claim says the spec parsed from `"*"` tests true on every
candidate.  In the code `"*"` parses through the compound-tree path into a
`MatchAll` (the `MatchAlways` classifier is unreachable, see C1), and
`MatchAll::test` panics on every candidate. -/
theorem claim_C8_star_test_panics (v : String) :
    testAfterParse "*" v =
      .ok (.error "Not implemented.  Not sure how tuple of VersionSpec matches with ConstraintTree") :=
  rfl

/-- C10: the `Spec` trait's provided `exact_value` returns
`Some(raw spec string)` exactly when `is_exact()` holds, `None`
otherwise. -/
theorem claim_C10_exact_value (s : VersionSpec) :
    (s.is_exact = true → s.exact_value = some s.raw_value) ∧
    (s.is_exact = false → s.exact_value = none) := by
  constructor <;> intro h <;>
    simp [VersionSpec.exact_value, VersionSpec.raw_value, VersionSpec.get_spec, h]

/-- Witness for C10 on one exact and one non-exact spec value. -/
theorem claim_C10_witness :
    VersionSpec.exact_value ⟨"1.7.1", none, .MatchOperator .Eq (versionFrom "1.7.1"), true⟩ =
      some "1.7.1" ∧
    VersionSpec.exact_value ⟨"1.7.1*", none, .MatchAlways, false⟩ = none :=
  ⟨(claim_C10_exact_value _).1 rfl, (claim_C10_exact_value _).2 rfl⟩

/-! ## Canonicalization: trimming and tokenizer lemmas -/

/-- `dropWhile` keeps at most the input's length. -/
theorem dropWhile_length_le {α : Type} (p : α → Bool) (l : List α) :
    (l.dropWhile p).length ≤ l.length := by
  induction l with
  | nil => simp [List.dropWhile]
  | cons a l ih =>
    cases h : p a
    · simp [List.dropWhile, h]
    · simp only [List.dropWhile, h]
      exact Nat.le_succ_of_le ih

/-- The head of a `dropWhile` result fails the predicate. -/
theorem dropWhile_head_false {α : Type} (p : α → Bool) (l : List α) :
    l.dropWhile p = [] ∨ ∃ c cs, l.dropWhile p = c :: cs ∧ p c = false := by
  induction l with
  | nil => exact Or.inl rfl
  | cons a l ih =>
    cases h : p a with
    | true =>
      simp only [List.dropWhile, h]
      exact ih
    | false => exact Or.inr ⟨a, l, by simp [List.dropWhile, h], h⟩

/-- `dropWhile` is a no-op when the head fails the predicate. -/
theorem dropWhile_cons_false {α : Type} (p : α → Bool) (a : α) (l : List α)
    (h : p a = false) : (a :: l).dropWhile p = a :: l := by
  simp [List.dropWhile, h]

/-- `dropWhile` is idempotent. -/
theorem dropWhile_idem {α : Type} (p : α → Bool) (l : List α) :
    (l.dropWhile p).dropWhile p = l.dropWhile p := by
  rcases dropWhile_head_false p l with h | ⟨c, cs, h, hc⟩
  · rw [h]; rfl
  · rw [h, dropWhile_cons_false _ _ _ hc]

/-- `dropWhile` preserves `all`. -/
theorem all_dropWhile {α : Type} (p q : α → Bool) (l : List α)
    (h : l.all q = true) : (l.dropWhile p).all q = true := by
  induction l with
  | nil => exact h
  | cons a l ih =>
    simp only [List.all_cons, Bool.and_eq_true] at h
    cases hp : p a with
    | false =>
      rw [dropWhile_cons_false _ _ _ hp]
      simp only [List.all_cons, Bool.and_eq_true]
      exact ⟨h.1, h.2⟩
    | true =>
      simp only [List.dropWhile, hp]
      exact ih h.2

/-- `reverse` preserves `all`. -/
theorem all_reverse {α : Type} (q : α → Bool) (l : List α) :
    l.reverse.all q = l.all q := by
  simp [List.all_eq_true]

/-- `dropTrailWS` cuts a suffix: the result extends to the input. -/
theorem dropTrailWS_append (l : List Char) : ∃ u, dropTrailWS l ++ u = l := by
  refine ⟨(l.reverse.takeWhile Char.isWhitespace).reverse, ?_⟩
  unfold dropTrailWS
  rw [← List.reverse_append, List.takeWhile_append_dropWhile, List.reverse_reverse]

/-- `dropTrailWS` is idempotent. -/
theorem dropTrailWS_idem (l : List Char) :
    dropTrailWS (dropTrailWS l) = dropTrailWS l := by
  unfold dropTrailWS
  rw [List.reverse_reverse, dropWhile_idem]

/-- If the input has no leading whitespace, neither has its
`dropTrailWS`. -/
theorem dropLead_dropTrail (l : List Char)
    (h : l.dropWhile Char.isWhitespace = l) :
    (dropTrailWS l).dropWhile Char.isWhitespace = dropTrailWS l := by
  obtain ⟨u, hu⟩ := dropTrailWS_append l
  cases hd : dropTrailWS l with
  | nil => rfl
  | cons c cs =>
    have hl : l = c :: (cs ++ u) := by rw [← hu, hd]; simp
    have hc : Char.isWhitespace c = false := by
      cases hc : Char.isWhitespace c
      · rfl
      · exfalso
        rw [hl] at h
        simp only [List.dropWhile, hc] at h
        have hle := dropWhile_length_le Char.isWhitespace (cs ++ u)
        have h2 := congrArg List.length h
        simp only [List.length_cons, List.length_append] at h2 hle
        omega
    exact dropWhile_cons_false _ _ _ hc

/-- Trimming is idempotent. -/
theorem trim_idem (l : List Char) : trimChars (trimChars l) = trimChars l := by
  unfold trimChars dropLeadWS
  rw [dropLead_dropTrail _ (dropWhile_idem _ _), dropTrailWS_idem]

/-- Trimming preserves `all`. -/
theorem trim_all (q : Char → Bool) (l : List Char) (h : l.all q = true) :
    (trimChars l).all q = true := by
  unfold trimChars dropTrailWS dropLeadWS
  rw [all_reverse]
  apply all_dropWhile
  rw [all_reverse]
  exact all_dropWhile _ _ _ h

/-- The tokenizer accumulates a run of non-special characters. -/
theorem tokenizeAux_ns (xs : List Char)
    (hxs : xs.all (fun c => !isTreeSpecial c) = true) :
    ∀ acc rest, tokenizeAux acc (xs ++ rest) = tokenizeAux (acc ++ xs) rest := by
  induction xs with
  | nil => intro acc rest; simp
  | cons x xs ih =>
    intro acc rest
    simp only [List.all_cons, Bool.and_eq_true] at hxs
    have hx : isTreeSpecial x = false := by
      cases hsx : isTreeSpecial x
      · rfl
      · rw [hsx] at hxs; simp at hxs
    calc tokenizeAux acc ((x :: xs) ++ rest)
        = tokenizeAux (acc ++ [x]) (xs ++ rest) := by
          simp [tokenizeAux, hx]
      _ = tokenizeAux ((acc ++ [x]) ++ xs) rest := ih hxs.2 _ _
      _ = tokenizeAux (acc ++ x :: xs) rest := by simp

/-- A canonical leaf run flushes to exactly its leaf token. -/
theorem flushLeaf_canonLeaf (cs : List Char) (h : canonLeaf cs = true) :
    flushLeaf cs = [.leaf cs] := by
  unfold canonLeaf at h
  simp only [Bool.and_eq_true, beq_iff_eq, Bool.not_eq_true'] at h
  unfold flushLeaf
  rw [h.1.2]
  simp [h.1.1]

/-- Unfold `CanonParts` into membership facts. -/
theorem canonParts_mem (c : Combinator) :
    ∀ ps, CanonParts c ps = true → ∀ p ∈ ps, Canon p = true ∧ topComb p ≠ some c := by
  intro ps
  induction ps with
  | nil => intro _ p hp; cases hp
  | cons q qs ih =>
    intro h p hp
    simp only [CanonParts, Bool.and_eq_true, bne_iff_ne, ne_eq] at h
    rcases List.mem_cons.mp hp with rfl | hp2
    · exact ⟨h.1.1, h.1.2⟩
    · exact ih h.2 p hp2

/-- Rebuild `CanonParts` from membership facts. -/
theorem canonParts_of_forall (c : Combinator) :
    ∀ ps, (∀ p ∈ ps, Canon p = true ∧ topComb p ≠ some c) → CanonParts c ps = true := by
  intro ps
  induction ps with
  | nil => intro _; rfl
  | cons q qs ih =>
    intro h
    have hq := h q (List.mem_cons_self q qs)
    simp only [CanonParts, Bool.and_eq_true, bne_iff_ne, ne_eq]
    exact ⟨⟨hq.1, hq.2⟩, ih (fun p hp => h p (List.mem_cons_of_mem q hp))⟩

/-- Unfold `Canon` on a node. -/
theorem canon_node (c : Combinator) (ps : List CTree)
    (h : Canon (.node c ps) = true) :
    2 ≤ ps.length ∧ ∀ p ∈ ps, Canon p = true ∧ topComb p ≠ some c := by
  simp only [Canon, Bool.and_eq_true, decide_eq_true_eq] at h
  exact ⟨h.1, canonParts_mem c ps h.2⟩

/-- Rebuild `Canon` on a node. -/
theorem canon_node_of (c : Combinator) (ps : List CTree)
    (hlen : 2 ≤ ps.length)
    (h : ∀ p ∈ ps, Canon p = true ∧ topComb p ≠ some c) :
    Canon (.node c ps) = true := by
  simp only [Canon, Bool.and_eq_true, decide_eq_true_eq]
  exact ⟨hlen, canonParts_of_forall c ps h⟩

/-- A part is smaller than its node. -/
theorem sizeOf_mem_lt (c : Combinator) (ps : List CTree) (p : CTree)
    (hp : p ∈ ps) : sizeOf p < sizeOf (CTree.node c ps) := by
  have h1 := List.sizeOf_lt_of_mem hp
  simp only [CTree.node.sizeOf_spec]
  omega

/-- Flushing an empty run yields no token. -/
theorem flushLeaf_nil : flushLeaf [] = [] := rfl

/-- Tokenizing from a special character flushes and emits its token. -/
theorem tokenizeAux_cons_special (c : Char) (h : isTreeSpecial c = true)
    (acc rest : List Char) :
    tokenizeAux acc (c :: rest) = flushLeaf acc ++ tokOf c :: tokenizeAux [] rest := by
  simp [tokenizeAux, h]

/-- Tokenization maps the serialized part list to its token list, given
that it does so for every part. -/
theorem tok_renderParts (b : Bool) (sep : Char) (hsep : isTreeSpecial sep = true) :
    ∀ ps : List CTree,
      (∀ p ∈ ps, ∀ b2 rest2, RestOK rest2 →
        tokenizeAux [] (render p b2 ++ rest2) = tokTree p b2 ++ tokenizeAux [] rest2) →
      ∀ rest, RestOK rest →
        tokenizeAux [] (renderParts ps b [sep] ++ rest) =
          tokParts ps b (tokOf sep) ++ tokenizeAux [] rest := by
  intro ps
  induction ps with
  | nil => intro _ rest _; simp [renderParts, tokParts]
  | cons p tail ih =>
    intro hel rest hrest
    cases tail with
    | nil =>
      simp only [renderParts, tokParts]
      exact hel p (List.mem_cons_self p []) b rest hrest
    | cons q qs =>
      have hp := hel p (List.mem_cons_self p (q :: qs))
      have h1 : renderParts (p :: q :: qs) b [sep] ++ rest =
          render p b ++ (sep :: (renderParts (q :: qs) b [sep] ++ rest)) := by
        simp [renderParts]
      rw [h1, hp b _ (Or.inr ⟨sep, _, rfl, hsep⟩)]
      rw [tokenizeAux_cons_special sep hsep, flushLeaf_nil]
      rw [ih (fun x hx => hel x (List.mem_cons_of_mem p hx)) rest hrest]
      simp [tokParts]

/-- Tokenization maps the serialization of a canonical tree to its token
serialization, in front of any legal remainder. -/
theorem tok_render (n : Nat) : ∀ t : CTree, sizeOf t ≤ n → Canon t = true →
    ∀ b rest, RestOK rest →
      tokenizeAux [] (render t b ++ rest) = tokTree t b ++ tokenizeAux [] rest := by
  induction n with
  | zero =>
    intro t h
    exact absurd h (by cases t <;> simp_arith)
  | succ n ih =>
    intro t hsize hcanon b rest hrest
    match t with
    | .leaf s =>
      have h3 : s.data.all (fun c => !isTreeSpecial c) = true := by
        simp only [Canon, canonLeaf, Bool.and_eq_true] at hcanon
        exact hcanon.2
      have hflush : flushLeaf s.data = [.leaf s.data] :=
        flushLeaf_canonLeaf s.data (by simpa [Canon] using hcanon)
      have h1 : tokenizeAux [] (render (.leaf s) b ++ rest) = tokenizeAux s.data rest := by
        simpa [render] using tokenizeAux_ns s.data h3 [] rest
      rcases hrest with rfl | ⟨c, rest2, rfl, hc⟩
      · rw [h1]
        show tokenizeAux s.data [] = _
        simp [tokenizeAux, hflush, tokTree, flushLeaf_nil]
      · rw [h1, tokenizeAux_cons_special c hc s.data rest2,
          tokenizeAux_cons_special c hc ([] : List Char) rest2, hflush, flushLeaf_nil]
        simp [tokTree]
    | .node .or ps =>
      obtain ⟨hlen, hmem⟩ := canon_node .or ps hcanon
      have hel : ∀ p ∈ ps, ∀ b2 rest2, RestOK rest2 →
          tokenizeAux [] (render p b2 ++ rest2) = tokTree p b2 ++ tokenizeAux [] rest2 := by
        intro p hp b2 rest2 hr2
        have hlt := sizeOf_mem_lt .or ps p hp
        exact ih p (by omega) (hmem p hp).1 b2 rest2 hr2
      cases b with
      | false =>
        have := tok_renderParts false '|' (by decide) ps hel rest hrest
        simpa [render, tokTree, tokOf] using this
      | true =>
        have h1 : render (.node .or ps) true ++ rest =
            '(' :: (renderParts ps false ['|'] ++ (')' :: rest)) := by
          simp [render]
        rw [h1, tokenizeAux_cons_special '(' (by decide), flushLeaf_nil]
        rw [tok_renderParts false '|' (by decide) ps hel (')' :: rest)
          (Or.inr ⟨')', rest, rfl, by decide⟩)]
        rw [tokenizeAux_cons_special ')' (by decide), flushLeaf_nil]
        simp [tokTree, tokOf]
    | .node .and ps =>
      obtain ⟨hlen, hmem⟩ := canon_node .and ps hcanon
      have hel : ∀ p ∈ ps, ∀ b2 rest2, RestOK rest2 →
          tokenizeAux [] (render p b2 ++ rest2) = tokTree p b2 ++ tokenizeAux [] rest2 := by
        intro p hp b2 rest2 hr2
        have hlt := sizeOf_mem_lt .and ps p hp
        exact ih p (by omega) (hmem p hp).1 b2 rest2 hr2
      have := tok_renderParts true ',' (by decide) ps hel rest hrest
      simpa [render, tokTree, tokOf] using this

/-! ## Canonicalization: `mkNode` algebra -/

/-- `splice` is the identity when no part repeats the combinator. -/
theorem splice_eq_of_ne (c : Combinator) :
    ∀ ts : List CTree, (∀ p ∈ ts, topComb p ≠ some c) → splice c ts = ts := by
  intro ts
  induction ts with
  | nil => intro _; rfl
  | cons t rest ih =>
    intro h
    have ht := h t (List.mem_cons_self t rest)
    have hr := fun p hp => h p (List.mem_cons_of_mem t hp)
    match t with
    | .leaf s => simp [splice, ih hr]
    | .node cc ps =>
      have hne : cc ≠ c := fun he => ht (by simp [topComb, he])
      have hbe : (cc == c) = false := by simp [hne]
      simp [splice, hbe, ih hr]

/-- A canonical singleton collapses to its member. -/
theorem mkNode_single (c : Combinator) (t : CTree) (h : Canon t = true) :
    mkNode c [t] = t := by
  match t with
  | .leaf s => rfl
  | .node cc ps =>
    obtain ⟨hlen, hmem⟩ := canon_node cc ps h
    by_cases hc : cc = c
    · subst hc
      have hsp : splice cc [CTree.node cc ps] = ps := by simp [splice]
      unfold mkNode
      rw [hsp]
      cases ps with
      | nil => simp at hlen
      | cons p1 tl =>
        cases tl with
        | nil => simp at hlen
        | cons p2 tl2 => rfl
    · have hbe : (cc == c) = false := by simp [hc]
      have hsp : splice c [CTree.node cc ps] = [CTree.node cc ps] := by
        simp [splice, hbe]
      unfold mkNode
      rw [hsp]

/-- `mkNode` rebuilds a canonical node from its parts. -/
theorem mkNode_self (c : Combinator) (ps : List CTree)
    (h : Canon (.node c ps) = true) : mkNode c ps = .node c ps := by
  obtain ⟨hlen, hmem⟩ := canon_node c ps h
  have hsp : splice c ps = ps := splice_eq_of_ne c ps (fun p hp => (hmem p hp).2)
  unfold mkNode
  rw [hsp]
  cases ps with
  | nil => rfl
  | cons p1 tl =>
    cases tl with
    | nil => simp at hlen
    | cons p2 tl2 => rfl

/-- `mkNode .and` is a left inverse of `andParts` on canonical trees. -/
theorem mkAnd_andParts (t : CTree) (h : Canon t = true) :
    mkNode .and (andParts t) = t := by
  match t with
  | .leaf s => exact mkNode_single .and (.leaf s) h
  | .node .or ps => exact mkNode_single .and (.node .or ps) h
  | .node .and ps => exact mkNode_self .and ps h

/-- Every element of a `splice` of canonical parts is canonical and does
not repeat the combinator. -/
theorem splice_canon (c : Combinator) :
    ∀ ts, (∀ p ∈ ts, Canon p = true) →
      ∀ q ∈ splice c ts, Canon q = true ∧ topComb q ≠ some c := by
  intro ts
  induction ts with
  | nil => intro _ q hq; cases hq
  | cons t rest ih =>
    intro h q hq
    have ht := h t (List.mem_cons_self t rest)
    have hr := fun p hp => h p (List.mem_cons_of_mem t hp)
    match t with
    | .leaf s =>
      rw [show splice c (.leaf s :: rest) = .leaf s :: splice c rest from by
        simp [splice]] at hq
      rcases List.mem_cons.mp hq with rfl | hq2
      · exact ⟨ht, by simp [topComb]⟩
      · exact ih hr q hq2
    | .node cc ps =>
      by_cases hc : cc = c
      · subst hc
        rw [show splice cc (.node cc ps :: rest) = ps ++ splice cc rest from by
          simp [splice]] at hq
        rcases List.mem_append.mp hq with hq2 | hq2
        · exact (canon_node cc ps ht).2 q hq2
        · exact ih hr q hq2
      · have hbe : (cc == c) = false := by simp [hc]
        rw [show splice c (.node cc ps :: rest) = .node cc ps :: splice c rest from by
          simp [splice, hbe]] at hq
        rcases List.mem_cons.mp hq with rfl | hq2
        · exact ⟨ht, by simp [topComb, hc]⟩
        · exact ih hr q hq2

/-- `splice` of a nonempty canonical list is nonempty. -/
theorem splice_ne_nil (c : Combinator) :
    ∀ ts, ts ≠ [] → (∀ p ∈ ts, Canon p = true) → splice c ts ≠ [] := by
  intro ts hne h
  match ts with
  | t :: rest =>
    have ht := h t (List.mem_cons_self t rest)
    match t with
    | .leaf s => simp [splice]
    | .node cc ps =>
      by_cases hc : cc = c
      · subst hc
        obtain ⟨hlen, _⟩ := canon_node cc ps ht
        rw [show splice cc (.node cc ps :: rest) = ps ++ splice cc rest from by
          simp [splice]]
        cases ps with
        | nil => simp at hlen
        | cons p1 tl => simp
      · have hbe : (cc == c) = false := by simp [hc]
        simp [splice, hbe]

/-- `mkNode` of a nonempty list of canonical parts is canonical. -/
theorem mkNode_canon (c : Combinator) (ts : List CTree) (hne : ts ≠ [])
    (h : ∀ p ∈ ts, Canon p = true) : Canon (mkNode c ts) = true := by
  have hq := splice_canon c ts h
  have hnn := splice_ne_nil c ts hne h
  unfold mkNode
  cases hsp : splice c ts with
  | nil => exact absurd hsp hnn
  | cons a tl =>
    cases tl with
    | nil => exact (hq a (by rw [hsp]; exact List.mem_cons_self a [])).1
    | cons b tl2 =>
      apply canon_node_of
      · simp
      · intro p hp
        exact hq p (by rw [hsp]; exact hp)

/-! ## Canonicalization: the parser produces canonical trees -/

/-- A combinator character never tokenizes to a leaf token. -/
theorem tokOf_ne_leaf (c : Char) (lcs : List Char) : tokOf c ≠ .leaf lcs := by
  intro h
  unfold tokOf at h
  split at h
  · cases h
  · split at h
    · cases h
    · split at h <;> cases h

/-- A leaf token emitted by `flushLeaf` from a non-special run is
canonical. -/
theorem flushLeaf_mem (acc : List Char)
    (hacc : acc.all (fun c => !isTreeSpecial c) = true)
    (lcs : List Char) (hmem : VTok.leaf lcs ∈ flushLeaf acc) :
    canonLeaf lcs = true := by
  rw [show flushLeaf acc =
      if (trimChars acc).isEmpty = true then [] else [.leaf (trimChars acc)] from rfl]
    at hmem
  cases he : (trimChars acc).isEmpty
  · rw [he] at hmem
    simp only [Bool.false_eq_true, if_false, List.mem_singleton, VTok.leaf.injEq] at hmem
    subst hmem
    unfold canonLeaf
    simp [he, trim_idem, trim_all _ _ hacc]
  · rw [he] at hmem
    simp at hmem

/-- Every leaf token produced by the tokenizer is canonical. -/
theorem tokenize_leaves :
    ∀ cs acc, acc.all (fun c => !isTreeSpecial c) = true →
      ∀ lcs, VTok.leaf lcs ∈ tokenizeAux acc cs → canonLeaf lcs = true := by
  intro cs
  induction cs with
  | nil =>
    intro acc hacc lcs hmem
    exact flushLeaf_mem acc hacc lcs hmem
  | cons c cs ih =>
    intro acc hacc lcs hmem
    cases hc : isTreeSpecial c
    · rw [show tokenizeAux acc (c :: cs) = tokenizeAux (acc ++ [c]) cs from by
        simp [tokenizeAux, hc]] at hmem
      refine ih (acc ++ [c]) ?_ lcs hmem
      simp [List.all_append, hacc, hc]
    · rw [tokenizeAux_cons_special c hc] at hmem
      rcases List.mem_append.mp hmem with h1 | h1
      · exact flushLeaf_mem acc hacc lcs h1
      · rcases List.mem_cons.mp h1 with h2 | h2
        · exact absurd h2.symm (tokOf_ne_leaf c lcs)
        · exact ih [] rfl lcs h2

/-- Main parser invariant: with canonical leaf tokens and canonical state,
a successful parse yields a canonical tree. -/
theorem parse_canon :
    ∀ toks after curAnd curOr stack t,
      (∀ lcs, VTok.leaf lcs ∈ toks → canonLeaf lcs = true) →
      (∀ x ∈ curAnd, Canon x = true) →
      (∀ x ∈ curOr, Canon x = true) →
      (∀ fr ∈ stack, (∀ x ∈ fr.1, Canon x = true) ∧ (∀ x ∈ fr.2, Canon x = true)) →
      (after = true → curAnd ≠ []) →
      parseToks toks after curAnd curOr stack = .ok t → Canon t = true := by
  intro toks
  induction toks with
  | nil =>
    intro after curAnd curOr stack t _ hAnd hOr _ hInv hok
    cases after
    · simp [parseToks] at hok
    · cases stack with
      | cons fr st => simp [parseToks] at hok
      | nil =>
        simp only [parseToks, if_true] at hok
        injection hok with hok2
        subst hok2
        apply mkNode_canon .or _ (by simp)
        intro x hx
        rcases List.mem_append.mp hx with hx2 | hx2
        · exact hOr x hx2
        · rw [List.mem_singleton.mp hx2]
          exact mkNode_canon .and curAnd (hInv rfl) hAnd
  | cons tok rest ih =>
    intro after curAnd curOr stack t hToks hAnd hOr hStack hInv hok
    have hToksRest : ∀ lcs, VTok.leaf lcs ∈ rest → canonLeaf lcs = true :=
      fun lcs h => hToks lcs (List.mem_cons_of_mem _ h)
    match tok with
    | .leaf s =>
      cases after
      · rw [show parseToks (VTok.leaf s :: rest) false curAnd curOr stack =
            parseToks rest true (curAnd ++ [.leaf (String.mk s)]) curOr stack from by
          simp [parseToks]] at hok
        refine ih true _ curOr stack t hToksRest ?_ hOr hStack (by simp) hok
        intro x hx
        rcases List.mem_append.mp hx with hx2 | hx2
        · exact hAnd x hx2
        · rw [List.mem_singleton.mp hx2]
          exact hToks s (List.mem_cons_self _ _)
      · simp [parseToks] at hok
    | .lpar =>
      cases after
      · rw [show parseToks (VTok.lpar :: rest) false curAnd curOr stack =
            parseToks rest false [] [] ((curAnd, curOr) :: stack) from by
          simp [parseToks]] at hok
        refine ih false [] [] _ t hToksRest (by simp) (by simp) ?_ (by simp) hok
        intro fr hfr
        rcases List.mem_cons.mp hfr with rfl | hfr2
        · exact ⟨hAnd, hOr⟩
        · exact hStack fr hfr2
      · simp [parseToks] at hok
    | .comma =>
      cases after
      · simp [parseToks] at hok
      · rw [show parseToks (VTok.comma :: rest) true curAnd curOr stack =
            parseToks rest false curAnd curOr stack from by simp [parseToks]] at hok
        exact ih false curAnd curOr stack t hToksRest hAnd hOr hStack (by simp) hok
    | .pipe =>
      cases after
      · simp [parseToks] at hok
      · rw [show parseToks (VTok.pipe :: rest) true curAnd curOr stack =
            parseToks rest false [] (curOr ++ [mkNode .and curAnd]) stack from by
          simp [parseToks]] at hok
        refine ih false [] _ stack t hToksRest (by simp) ?_ hStack (by simp) hok
        intro x hx
        rcases List.mem_append.mp hx with hx2 | hx2
        · exact hOr x hx2
        · rw [List.mem_singleton.mp hx2]
          exact mkNode_canon .and curAnd (hInv rfl) hAnd
    | .rpar =>
      cases after
      · simp [parseToks] at hok
      · cases stack with
        | nil => simp [parseToks] at hok
        | cons fr st =>
          obtain ⟨pa, po⟩ := fr
          rw [show parseToks (VTok.rpar :: rest) true curAnd curOr ((pa, po) :: st) =
              parseToks rest true
                (pa ++ [mkNode .or (curOr ++ [mkNode .and curAnd])]) po st from by
            simp [parseToks]] at hok
          have hfr := hStack (pa, po) (List.mem_cons_self _ _)
          have hStackRest : ∀ fr2 ∈ st,
              (∀ x ∈ fr2.1, Canon x = true) ∧ (∀ x ∈ fr2.2, Canon x = true) :=
            fun fr2 h => hStack fr2 (List.mem_cons_of_mem _ h)
          refine ih true _ po st t hToksRest ?_ hfr.2 hStackRest (by simp) hok
          intro x hx
          rcases List.mem_append.mp hx with hx2 | hx2
          · exact hfr.1 x hx2
          · rw [List.mem_singleton.mp hx2]
            apply mkNode_canon .or _ (by simp)
            intro y hy
            rcases List.mem_append.mp hy with hy2 | hy2
            · exact hOr y hy2
            · rw [List.mem_singleton.mp hy2]
              exact mkNode_canon .and curAnd (hInv rfl) hAnd

/-- `treeify` only produces canonical trees. -/
theorem treeify_canon (s : String) (t : CTree) (h : treeify s = .ok t) :
    Canon t = true := by
  unfold treeify at h
  exact parse_canon (tokenize s.data) false [] [] [] t
    (tokenize_leaves s.data [] rfl) (by simp) (by simp) (by simp)
    (by simp) h

/-! ## Canonicalization: running the parser over a serialized tree -/

/-- `initOf` and `lastOf` decompose a nonempty list. -/
theorem initOf_lastOf (a : CTree) :
    ∀ l : List CTree, initOf a l ++ [lastOf a l] = a :: l := by
  intro l
  induction l generalizing a with
  | nil => rfl
  | cons b bs ih => simp [initOf, lastOf, ih b]

/-- `lastOf` is a member of the list. -/
theorem lastOf_mem (a : CTree) :
    ∀ l : List CTree, lastOf a l ∈ a :: l := by
  intro l
  induction l generalizing a with
  | nil => exact List.mem_cons_self a []
  | cons b bs ih =>
    rw [show lastOf a (b :: bs) = lastOf b bs from rfl]
    exact List.mem_cons_of_mem a (ih b)

/-- Consuming a comma-separated term sequence appends its trees to the
current AND group. -/
theorem andSeqRun :
    ∀ (ps : List CTree) (p : CTree),
      (∀ q ∈ p :: ps, Canon q = true ∧ topComb q ≠ some .and ∧ TermRun q) →
      ∀ rest curAnd curOr stack,
        parseToks (tokParts (p :: ps) true .comma ++ rest) false curAnd curOr stack =
          parseToks rest true (curAnd ++ (p :: ps)) curOr stack := by
  intro ps
  induction ps with
  | nil =>
    intro p h rest curAnd curOr stack
    have hp := (h p (List.mem_cons_self p [])).2.2
    rw [show tokParts [p] true .comma = tokTree p true from rfl]
    exact hp rest curAnd curOr stack
  | cons q qs ih =>
    intro p h rest curAnd curOr stack
    have hp := (h p (List.mem_cons_self _ _)).2.2
    have h1 : tokParts (p :: q :: qs) true .comma ++ rest =
        tokTree p true ++ (VTok.comma :: (tokParts (q :: qs) true .comma ++ rest)) := by
      simp [tokParts]
    rw [h1, hp _ curAnd curOr stack]
    rw [show parseToks (VTok.comma :: (tokParts (q :: qs) true .comma ++ rest)) true
        (curAnd ++ [p]) curOr stack =
        parseToks (tokParts (q :: qs) true .comma ++ rest) false
          (curAnd ++ [p]) curOr stack from by simp [parseToks]]
    rw [ih q (fun x hx => h x (List.mem_cons_of_mem p hx)) rest (curAnd ++ [p]) curOr stack]
    simp

/-- Consuming a pipe-separated alternative sequence collects all but the
last alternative into the OR accumulator and leaves the last one's terms
as the current AND group. -/
theorem orSeqRun :
    ∀ (as2 : List CTree) (a : CTree),
      (∀ q ∈ a :: as2, Canon q = true ∧ topComb q ≠ some .or ∧ AndRun q) →
      ∀ rest curOr stack,
        parseToks (tokParts (a :: as2) false .pipe ++ rest) false [] curOr stack =
          parseToks rest true (andParts (lastOf a as2)) (curOr ++ initOf a as2) stack := by
  intro as2
  induction as2 with
  | nil =>
    intro a h rest curOr stack
    have ha := (h a (List.mem_cons_self _ _)).2.2
    rw [show tokParts [a] false .pipe = tokTree a false from rfl]
    rw [ha rest [] curOr stack]
    rw [show lastOf a [] = a from rfl, show initOf a ([] : List CTree) = [] from rfl]
    simp
  | cons b bs ih =>
    intro a h rest curOr stack
    have ha := (h a (List.mem_cons_self _ _)).2.2
    have hca := (h a (List.mem_cons_self _ _)).1
    have h1 : tokParts (a :: b :: bs) false .pipe ++ rest =
        tokTree a false ++ (VTok.pipe :: (tokParts (b :: bs) false .pipe ++ rest)) := by
      simp [tokParts]
    rw [h1, ha _ [] curOr stack]
    rw [show parseToks (VTok.pipe :: (tokParts (b :: bs) false .pipe ++ rest)) true
        ([] ++ andParts a) curOr stack =
        parseToks (tokParts (b :: bs) false .pipe ++ rest) false []
          (curOr ++ [mkNode .and ([] ++ andParts a)]) stack from by simp [parseToks]]
    rw [List.nil_append, mkAnd_andParts a hca]
    rw [ih b (fun x hx => h x (List.mem_cons_of_mem a hx)) rest (curOr ++ [a]) stack]
    rw [show lastOf a (b :: bs) = lastOf b bs from rfl,
      show initOf a (b :: bs) = a :: initOf b bs from rfl]
    simp

/-- Main machine lemma: a canonical tree's term serialization is consumed
as one term, and its alternative serialization as its AND terms. -/
theorem main_run : ∀ (n : Nat) (t : CTree), sizeOf t ≤ n → Canon t = true →
    (topComb t ≠ some .and → TermRun t) ∧ (topComb t ≠ some .or → AndRun t) := by
  intro n
  induction n with
  | zero =>
    intro t h
    exact absurd h (by cases t <;> simp_arith)
  | succ n ih =>
    intro t hsize hcanon
    match t with
    | .leaf s =>
      exact ⟨fun _ rest curAnd curOr stack => rfl,
             fun _ rest curAnd curOr stack => rfl⟩
    | .node .and ps =>
      obtain ⟨hlen, hmem⟩ := canon_node .and ps hcanon
      refine ⟨fun hne => absurd rfl hne, fun _ => ?_⟩
      intro rest curAnd curOr stack
      cases ps with
      | nil => simp at hlen
      | cons p ps2 =>
        have hel : ∀ q ∈ p :: ps2, Canon q = true ∧ topComb q ≠ some .and ∧ TermRun q := by
          intro q hq
          have hc := hmem q hq
          have hlt := sizeOf_mem_lt .and (p :: ps2) q hq
          exact ⟨hc.1, hc.2, (ih q (by omega) hc.1).1 hc.2⟩
        have h2 := andSeqRun ps2 p hel rest curAnd curOr stack
        rw [show tokTree (.node .and (p :: ps2)) false = tokParts (p :: ps2) true .comma
          from by simp [tokTree]]
        rw [show andParts (.node .and (p :: ps2)) = p :: ps2 from rfl]
        exact h2
    | .node .or as =>
      obtain ⟨hlen, hmem⟩ := canon_node .or as hcanon
      refine ⟨fun _ => ?_, fun hne => absurd rfl hne⟩
      intro rest curAnd curOr stack
      cases as with
      | nil => simp at hlen
      | cons a as2 =>
        have hel : ∀ q ∈ a :: as2, Canon q = true ∧ topComb q ≠ some .or ∧ AndRun q := by
          intro q hq
          have hc := hmem q hq
          have hlt := sizeOf_mem_lt .or (a :: as2) q hq
          exact ⟨hc.1, hc.2, (ih q (by omega) hc.1).2 hc.2⟩
        have h1 : tokTree (.node .or (a :: as2)) true ++ rest =
            VTok.lpar :: (tokParts (a :: as2) false .pipe ++ (VTok.rpar :: rest)) := by
          simp [tokTree]
        rw [h1]
        rw [show parseToks
            (VTok.lpar :: (tokParts (a :: as2) false .pipe ++ (VTok.rpar :: rest)))
            false curAnd curOr stack =
            parseToks (tokParts (a :: as2) false .pipe ++ (VTok.rpar :: rest))
              false [] [] ((curAnd, curOr) :: stack) from by simp [parseToks]]
        rw [orSeqRun as2 a hel (VTok.rpar :: rest) [] ((curAnd, curOr) :: stack)]
        rw [show parseToks (VTok.rpar :: rest) true (andParts (lastOf a as2))
            ([] ++ initOf a as2) ((curAnd, curOr) :: stack) =
            parseToks rest true
              (curAnd ++ [mkNode .or (([] ++ initOf a as2) ++
                [mkNode .and (andParts (lastOf a as2))])]) curOr stack
          from by simp [parseToks]]
        rw [mkAnd_andParts _ (hmem _ (lastOf_mem a as2)).1]
        rw [List.nil_append, initOf_lastOf a as2]
        rw [mkNode_self .or (a :: as2) hcanon]

/-- Round trip: `treeify` recovers a canonical tree from its
serialization. -/
theorem treeify_untreeify (t : CTree) (h : Canon t = true) :
    treeify (untreeify t) = .ok t := by
  unfold treeify untreeify
  rw [show (String.mk (render t false)).data = render t false from rfl]
  unfold tokenize
  have htok : tokenizeAux [] (render t false) = tokTree t false := by
    have h2 := tok_render (sizeOf t) t le_rfl h false [] (Or.inl rfl)
    rw [List.append_nil] at h2
    rw [h2, show tokenizeAux ([] : List Char) [] = [] from rfl, List.append_nil]
  rw [htok]
  by_cases hor : topComb t = some Combinator.or
  · match t, hor with
    | .node .or as, _ =>
      obtain ⟨hlen, hmem⟩ := canon_node .or as h
      cases as with
      | nil => simp at hlen
      | cons a as2 =>
        have hel : ∀ q ∈ a :: as2, Canon q = true ∧ topComb q ≠ some .or ∧ AndRun q := by
          intro q hq
          have hc := hmem q hq
          exact ⟨hc.1, hc.2, (main_run (sizeOf q) q le_rfl hc.1).2 hc.2⟩
        rw [show tokTree (.node .or (a :: as2)) false = tokParts (a :: as2) false .pipe
          from by simp [tokTree]]
        rw [← List.append_nil (tokParts (a :: as2) false .pipe)]
        rw [orSeqRun as2 a hel [] [] []]
        rw [show parseToks [] true (andParts (lastOf a as2)) ([] ++ initOf a as2) [] =
            .ok (mkNode .or (([] ++ initOf a as2) ++
              [mkNode .and (andParts (lastOf a as2))])) from by simp [parseToks]]
        rw [mkAnd_andParts _ (hmem _ (lastOf_mem a as2)).1, List.nil_append,
          initOf_lastOf a as2, mkNode_self .or _ h]
  · have hAnd := (main_run (sizeOf t) t le_rfl h).2 hor
    rw [← List.append_nil (tokTree t false)]
    rw [hAnd [] [] [] []]
    rw [show parseToks [] true ([] ++ andParts t) [] [] =
        .ok (mkNode .or ([] ++ [mkNode .and ([] ++ andParts t)])) from by
      simp [parseToks]]
    rw [List.nil_append, List.nil_append, mkAnd_andParts t h, mkNode_single .or t h]

/-- One canonicalization pass reaches a fixed point: re-canonicalizing the
canonical text reproduces it. -/
theorem canonical_fixed (s c : String) (h : canonicalize s = .ok c) :
    canonicalize c = .ok c := by
  unfold canonicalize at h ⊢
  cases ht : treeify s with
  | error e => rw [ht] at h; simp [Except.map] at h
  | ok t =>
    rw [ht] at h
    simp only [Except.map] at h
    injection h with h2
    subst h2
    rw [treeify_untreeify t (treeify_canon s t ht)]
    rfl

/-- C9 (counterexample to the claimed example): one canonicalization pass
maps the grouping example to `"1.5|(1.6|1.7),1.8,1.9|2.0|2.1"` — the OR
group nested inside the AND keeps its parentheses, per the serialization
rule of §4.3 — which differs from the claimed canonical text
`"1.5|1.6|1.7,1.8,1.9|2.0|2.1"` (which would denote a different tree:
`1.6` an OR alternative of its own and `1.7` conjoined with `1.8,1.9`). -/
theorem claim_C9_counterexample :
    canonicalize "( (1.5|((1.6|1.7), 1.8), 1.9 |2.0))|2.1" =
      .ok "1.5|(1.6|1.7),1.8,1.9|2.0|2.1" ∧
    "1.5|(1.6|1.7),1.8,1.9|2.0|2.1" ≠ "1.5|1.6|1.7,1.8,1.9|2.0|2.1" :=
  ⟨rfl, by decide⟩

/-- C9 (amended): for every constraint string that `treeify` accepts,
canonicalization (`untreeify ∘ treeify`) is a fixed point after one pass,
and the canonical text of the grouping example — also as the spec string of
the spec `try_from` builds from it — is
`"1.5|(1.6|1.7),1.8,1.9|2.0|2.1"`. -/
theorem claim_C9_canonical_fixed_point :
    (∀ s c, canonicalize s = .ok c → canonicalize c = .ok c) ∧
    canonicalize "( (1.5|((1.6|1.7), 1.8), 1.9 |2.0))|2.1" =
      .ok "1.5|(1.6|1.7),1.8,1.9|2.0|2.1" ∧
    (VersionSpec.try_from "( (1.5|((1.6|1.7), 1.8), 1.9 |2.0))|2.1").map
      VersionSpec.get_spec = .ok "1.5|(1.6|1.7),1.8,1.9|2.0|2.1" :=
  ⟨canonical_fixed, rfl, rfl⟩

/-- Witness for C9 at the grouping example: its canonical text is a fixed
point of a further canonicalization pass. -/
theorem claim_C9_witness :
    canonicalize "1.5|(1.6|1.7),1.8,1.9|2.0|2.1" =
      .ok "1.5|(1.6|1.7),1.8,1.9|2.0|2.1" :=
  claim_C9_canonical_fixed_point.1 "( (1.5|((1.6|1.7), 1.8), 1.9 |2.0))|2.1" _ (by rfl)
